import Mathlib

/-!
Verification of the card-game engines (`logic_pickpass.py`, `logic_bidwiser.py`)
against their natural-language specification.

The Python sources are shallowly embedded: Python `int` becomes `Int`, Python
`float` results of the heuristics become `ℚ` (all float computations in the
source are exact on the small decimals involved), lists become `List`,
dictionaries/objects become structures, and `random.choice` / `random.uniform`
become explicit function parameters (`pick`, `jitter`).  Python's built-in
`sorted` / `list.sort` (a stable ascending sort) is modelled by
`List.insertionSort (· ≤ ·)`, which is also stable and ascending; a stable
ascending sort of a list is unique, so this is a faithful model.
-/

namespace CardGame

/-! ## `logic_pickpass.py` : scoring utilities -/

/-- The loop body of `calculate_score`: walk the sorted cards, a card adds its
face value unless it directly follows `previous` (`card != previous + 1`). -/
def score_walk (previous : Int) : List Int → Int
  | [] => 0
  | card :: rest => (if card ≠ previous + 1 then card else 0) + score_walk card rest

/-- Embedding of `calculate_score(cards)` from `logic_pickpass.py`:
sort ascending, then walk with sentinel `previous = -1`. -/
def calculate_score (cards : List Int) : Int :=
  if cards = [] then 0
  else score_walk (-1) (cards.insertionSort (· ≤ ·))

/-- The claim's wording of the scoring rule: sum, over the ascending sorted
order, of every card that does not immediately follow its predecessor (the
first card has no predecessor, so it always counts). -/
def claim_score (cards : List Int) : Int :=
  match cards.insertionSort (· ≤ ·) with
  | [] => 0
  | c :: rest => c + score_walk c rest

/-- Opponent view used by `predict_opponent_action` (the Python dict with
keys `'chips'` and `'cards'`). -/
structure Opponent where
  chips : Int
  cards : List Int
deriving DecidableEq

/-- Embedding of `predict_opponent_action(opponent_dict, card, projected_pot)`
from `logic_pickpass.py`. -/
def predict_opponent_action (o : Opponent) (card projected_pot : Int) : ℚ :=
  if o.chips = 0 then 1
  else
    if calculate_score (o.cards ++ [card]) < calculate_score o.cards then
      (if o.chips < 3 then 1 else 8/10)
    else if o.chips ≤ 2 ∧ projected_pot ≥ 3 then 9/10
    else if (projected_pot : ℚ) > (card : ℚ)/2 then 6/10
    else 1/10

/-- The claim's version of the opponent heuristic, following its words: 1.0 on
zero chips; else 0.8 when the card lowers the opponent's score and they hold
under 3 chips; 0.9 when chips ≤ 2 and pot ≥ 3; 0.6 when the pot exceeds half
the card; otherwise 0.1 (tested in this order). -/
def predict_opponent_action_claimed (o : Opponent) (card projected_pot : Int) : ℚ :=
  if o.chips = 0 then 1
  else if calculate_score (o.cards ++ [card]) < calculate_score o.cards ∧ o.chips < 3 then 8/10
  else if o.chips ≤ 2 ∧ projected_pot ≥ 3 then 9/10
  else if (projected_pot : ℚ) > (card : ℚ)/2 then 6/10
  else 1/10

/-- The amended opponent heuristic: when the card lowers the opponent's score,
the result is 1.0 under 3 chips and 0.8 otherwise; the remaining cases are as
claimed. -/
def predict_opponent_action_amended (o : Opponent) (card projected_pot : Int) : ℚ :=
  if o.chips = 0 then 1
  else if calculate_score (o.cards ++ [card]) < calculate_score o.cards ∧ o.chips < 3 then 1
  else if calculate_score (o.cards ++ [card]) < calculate_score o.cards then 8/10
  else if o.chips ≤ 2 ∧ projected_pot ≥ 3 then 9/10
  else if (projected_pot : ℚ) > (card : ℚ)/2 then 6/10
  else 1/10

/-! ### Auxiliary lemmas about sorting -/

lemma insertionSort_eq_of_perm {l l' : List Int} (h : l.Perm l') :
    l.insertionSort (· ≤ ·) = l'.insertionSort (· ≤ ·) := by
  refine List.eq_of_perm_of_sorted ?_ (List.sorted_insertionSort _ l)
    (List.sorted_insertionSort _ l')
  exact (List.perm_insertionSort _ l).trans (h.trans (List.perm_insertionSort _ l').symm)

lemma calculate_score_eq_claim_score (cards : List Int) :
    calculate_score cards = claim_score cards := by
  unfold calculate_score claim_score
  by_cases h : cards = []
  · subst h; simp [List.insertionSort]
  · have hs : cards.insertionSort (· ≤ ·) ≠ [] := by
      intro hc
      exact h ((List.perm_insertionSort (· ≤ ·) cards).symm.trans (hc ▸ List.Perm.refl _)).eq_nil
    rcases hl : cards.insertionSort (· ≤ ·) with _ | ⟨c, rest⟩
    · exact absurd hl hs
    · simp only [if_neg h, score_walk]
      by_cases hc : c = 0
      · subst hc; simp
      · have : c ≠ -1 + 1 := by omega
        rw [if_pos this]

/-- C1: `calculate_score` computes exactly the claimed run-aware sum, is
invariant under permutation of its input, and takes the claimed values on the
four sample inputs. -/
theorem calculate_score_spec :
    (∀ cards : List Int, calculate_score cards = claim_score cards) ∧
    (∀ l l' : List Int, l.Perm l' → calculate_score l = calculate_score l') ∧
    calculate_score [] = 0 ∧ calculate_score [5] = 5 ∧
    calculate_score [5, 6, 7] = 5 ∧ calculate_score [5, 7] = 12 := by
  refine ⟨calculate_score_eq_claim_score, ?_, by decide, by decide, by decide, by decide⟩
  intro l l' h
  unfold calculate_score
  rw [insertionSort_eq_of_perm h]
  by_cases hl' : l' = []
  · have hl : l = [] := (hl' ▸ h).eq_nil
    simp [hl, hl']
  · have hl : l ≠ [] := fun hc => hl' (by subst hc; exact h.symm.eq_nil)
    simp [hl, hl']

/-- C1 witness: the permutation-invariance clause applied at a concrete pair. -/
theorem calculate_score_spec_witness :
    ([7, 5] : List Int).Perm [5, 7] ∧ calculate_score [7, 5] = calculate_score [5, 7] :=
  ⟨by decide, calculate_score_spec.2.1 [7, 5] [5, 7] (by decide)⟩

/-- C2 counterexample: an opponent with 1 chip holding `[6]`, offered card 5 at
pot 0: the card lowers their score (5 < 6) and they hold under 3 chips, so the
claim says 0.8, but the code returns 1.0. -/
theorem predict_opponent_action_counterexample :
    predict_opponent_action ⟨1, [6]⟩ 5 0 = 1 ∧
    predict_opponent_action_claimed ⟨1, [6]⟩ 5 0 = 8/10 ∧
    (1 : ℚ) ≠ 8/10 := by
  refine ⟨rfl, rfl, by norm_num⟩

/-- C2 (amended): `predict_opponent_action` returns 1.0 on zero chips; else,
when the card would lower the opponent's score, 1.0 under 3 chips and 0.8
otherwise; else 0.9 when chips ≤ 2 and pot ≥ 3; else 0.6 when the pot exceeds
half the card's face value; otherwise 0.1. -/
theorem predict_opponent_action_amended_spec (o : Opponent) (card projected_pot : Int) :
    predict_opponent_action o card projected_pot =
      predict_opponent_action_amended o card projected_pot := by
  unfold predict_opponent_action predict_opponent_action_amended
  split_ifs with h1 h2 h3 h4 h5 h6 <;> try rfl
  all_goals tauto

/-! ## `logic_pickpass.py` : the `PickPassGame` engine -/

/-- One element of `PickPassGame.players`. -/
structure PPPlayer where
  name : String
  cards : List Int
  chips : Int
  is_human : Bool
deriving DecidableEq, Inhabited

/-- One element of `PickPassGame.leaderboard`, as built by `end_game`. -/
structure LBEntry where
  name : String
  card_total : Int
  chips : Int
  final_score : Int
  is_human : Bool
deriving DecidableEq, Inhabited

/-- The mutable fields of a `PickPassGame` instance. -/
structure PPState where
  players : List PPPlayer
  deck : List Int
  pot : Int
  current_card : Int
  current_player_idx : Nat
  game_over : Bool
  leaderboard : List LBEntry
deriving DecidableEq

/-- The action argument of `play_turn`. -/
inductive PPAction where
  | take
  | pass
deriving DecidableEq

/-- The leaderboard entry `end_game` builds for one player. -/
def mkEntry (p : PPPlayer) : LBEntry :=
  let card_total := calculate_score p.cards
  { name := p.name, card_total := card_total, chips := p.chips,
    final_score := card_total - p.chips, is_human := p.is_human }

/-- The comparison key of `self.leaderboard.sort(key=lambda x: x['final_score'])`. -/
def lbLE (a b : LBEntry) : Prop := a.final_score ≤ b.final_score

instance : DecidableRel lbLE := fun a b => inferInstanceAs (Decidable (a.final_score ≤ b.final_score))

instance : IsTotal LBEntry lbLE := ⟨fun a b => le_total a.final_score b.final_score⟩

instance : IsTrans LBEntry lbLE := ⟨fun _ _ _ h1 h2 => le_trans h1 h2⟩

/-- Embedding of `PickPassGame.end_game`: set the terminal flag and build the
leaderboard, sorted ascending by final score.  Python's stable `list.sort` is
modelled by the (stable) `insertionSort`. -/
def end_game (s : PPState) : PPState :=
  { s with game_over := true,
           leaderboard := (s.players.map mkEntry).insertionSort lbLE }

/-- The state mutations of the `'take'` branch that precede the deck check:
the acting player gains the face-up card and the pot, the pot resets, the turn
advances. -/
def take_core (s : PPState) : PPState :=
  let p := s.players.getD s.current_player_idx default
  { s with players := s.players.set s.current_player_idx
             { p with cards := p.cards ++ [s.current_card], chips := p.chips + s.pot },
           pot := 0,
           current_player_idx := (s.current_player_idx + 1) % s.players.length }

/-- The `'take'` branch of `play_turn` (also reached by a `'pass'` with zero
chips through `return self.play_turn('take')`): after the core mutations, an
empty draw pile ends the game, otherwise the next card is revealed. -/
def do_take (s : PPState) : PPState :=
  match s.deck with
  | [] => end_game (take_core s)
  | c :: rest => { take_core s with current_card := c, deck := rest }

/-- Python's `if player_name_check and current_p['name'] != player_name_check:`
— `None` and the empty string are falsy and skip the guard. -/
def name_check_rejects (current_name : String) : Option String → Bool
  | none => false
  | some nm => if nm = "" then false else if current_name = nm then false else true

/-- Embedding of `PickPassGame.play_turn(action, player_name_check)`.  The
returned value in Python is `get_state()`, a snapshot of the mutated engine;
we return the engine state itself. -/
def play_turn (s : PPState) (action : PPAction) (player_name_check : Option String) : PPState :=
  let current_p := s.players.getD s.current_player_idx default
  if name_check_rejects current_p.name player_name_check then s
  else
    match action with
    | .take => do_take s
    | .pass =>
        if current_p.chips > 0 then
          { s with players := s.players.set s.current_player_idx
                     { current_p with chips := current_p.chips - 1 },
                   pot := s.pot + 1,
                   current_player_idx := (s.current_player_idx + 1) % s.players.length }
        else do_take s

/-- Total chips in the system: every player's stack plus the pot. -/
def totalChips (s : PPState) : Int :=
  (s.players.map (fun p => p.chips)).sum + s.pot

/-! ### Structural lemmas for `play_turn` -/

lemma do_take_deck_nil {s : PPState} (hd : s.deck = []) :
    do_take s = end_game (take_core s) := by
  unfold do_take; rw [hd]

lemma do_take_deck_cons {s : PPState} {c : Int} {r : List Int} (hd : s.deck = c :: r) :
    do_take s = { take_core s with current_card := c, deck := r } := by
  unfold do_take; rw [hd]

lemma do_take_players (s : PPState) : (do_take s).players = (take_core s).players := by
  unfold do_take
  cases s.deck <;> simp [end_game]

lemma do_take_pot (s : PPState) : (do_take s).pot = 0 := by
  unfold do_take
  cases s.deck <;> simp [end_game, take_core]

lemma do_take_game_over_of_deck_cons {s : PPState} {c : Int} {r : List Int}
    (hd : s.deck = c :: r) :
    (do_take s).game_over = s.game_over ∧ (do_take s).leaderboard = s.leaderboard := by
  rw [do_take_deck_cons hd]
  exact ⟨rfl, rfl⟩

lemma map_chips_sum_set (l : List PPPlayer) (i : Nat) (p : PPPlayer) (h : i < l.length) :
    ((l.set i p).map (fun q => q.chips)).sum
      = (l.map (fun q => q.chips)).sum - (l.getD i default).chips + p.chips := by
  induction l generalizing i with
  | nil => simp at h
  | cons a l ih =>
    cases i with
    | zero =>
      simp only [List.set_cons_zero, List.map_cons, List.sum_cons, List.getD_cons_zero]
      ring
    | succ n =>
      have hn : n < l.length := by simpa using h
      simp only [List.set_cons_succ, List.map_cons, List.sum_cons, List.getD_cons_succ, ih n hn]
      ring

lemma getD_chips_nonneg {s : PPState} (hall : ∀ p ∈ s.players, 0 ≤ p.chips) (i : Nat) :
    0 ≤ (s.players.getD i default).chips := by
  rcases lt_or_ge i s.players.length with h | h
  · rw [List.getD_eq_getElem?_getD, List.getElem?_eq_getElem h]
    exact hall _ (List.getElem_mem h)
  · rw [List.getD_eq_getElem?_getD, List.getElem?_eq_none (by omega)]
    exact le_refl 0

lemma totalChips_do_take (s : PPState) (h : s.current_player_idx < s.players.length) :
    totalChips (do_take s) = totalChips s := by
  unfold totalChips
  rw [do_take_players, do_take_pot]
  unfold take_core
  simp only
  rw [map_chips_sum_set _ _ _ h]
  ring

/-- C5: across any `play_turn` transition the system chip total (players plus
pot) is conserved, and on a `take` the only chip movement is the whole pot
going to the acting player: their stack grows by the pot, everyone else's
stack is unchanged, and the pot resets to zero. -/
theorem play_turn_conserves_chips (s : PPState)
    (h : s.current_player_idx < s.players.length) :
    (∀ (a : PPAction) (n : Option String), totalChips (play_turn s a n) = totalChips s) ∧
    ((do_take s).pot = 0 ∧
     ((do_take s).players.getD s.current_player_idx default).chips
        = (s.players.getD s.current_player_idx default).chips + s.pot ∧
     (∀ j, j ≠ s.current_player_idx →
        ((do_take s).players.getD j default).chips = (s.players.getD j default).chips) ∧
     (∀ n, name_check_rejects (s.players.getD s.current_player_idx default).name n = false →
        play_turn s .take n = do_take s)) := by
  constructor
  · intro a n
    unfold play_turn
    by_cases hr : name_check_rejects (s.players.getD s.current_player_idx default).name n = true
    · rw [if_pos hr]
    · simp only [Bool.not_eq_true] at hr
      simp only [hr, Bool.false_eq_true, if_false]
      cases a with
      | take => exact totalChips_do_take s h
      | pass =>
        by_cases hc : (s.players.getD s.current_player_idx default).chips > 0
        · simp only [hc, if_true]
          unfold totalChips
          simp only
          rw [map_chips_sum_set _ _ _ h]
          ring
        · simp only [hc, if_false]
          exact totalChips_do_take s h
  · refine ⟨do_take_pot s, ?_, ?_, ?_⟩
    · rw [do_take_players]
      unfold take_core
      simp only
      rw [List.getD_eq_getElem?_getD, List.getElem?_set_self (by simpa using h)]
      rfl
    · intro j hj
      rw [do_take_players]
      unfold take_core
      simp only
      rw [List.getD_eq_getElem?_getD, List.getElem?_set_ne (fun hc => hj hc.symm),
        ← List.getD_eq_getElem?_getD]
    · intro n hn
      have hn' : ¬ (name_check_rejects
          (s.players.getD s.current_player_idx default).name n = true) := by rw [hn]; simp
      unfold play_turn
      rw [if_neg hn']

/-- C5 witness: conservation applied to a concrete two-player state. -/
theorem play_turn_conserves_chips_witness :
    (0 : Nat) < 2 ∧
    totalChips (play_turn
      { players := [⟨"A", [], 3, true⟩, ⟨"B", [], 4, false⟩], deck := [9], pot := 2,
        current_card := 7, current_player_idx := 0, game_over := false, leaderboard := [] }
      .take none)
      = totalChips
      { players := [⟨"A", [], 3, true⟩, ⟨"B", [], 4, false⟩], deck := [9], pot := 2,
        current_card := 7, current_player_idx := 0, game_over := false, leaderboard := [] } :=
  ⟨by decide,
   (play_turn_conserves_chips
     { players := [⟨"A", [], 3, true⟩, ⟨"B", [], 4, false⟩], deck := [9], pot := 2,
       current_card := 7, current_player_idx := 0, game_over := false, leaderboard := [] }
     (by decide)).1 .take none⟩

/-- A concrete two-player PickPass state used for counterexamples and
witnesses. -/
def ppDemo : PPState :=
  { players := [⟨"Ankit", [], 11, true⟩, ⟨"Vector", [], 11, false⟩],
    deck := [4], pot := 0, current_card := 3, current_player_idx := 0,
    game_over := false, leaderboard := [] }

/-- C4 counterexample: the empty string is an identity that is not the current
player's name, yet a `'pass'` submitted with it goes through (Python treats
`""` as falsy in the ownership guard) and mutates the state. -/
theorem play_turn_wrong_name_counterexample :
    ("" : String) ≠ (ppDemo.players.getD ppDemo.current_player_idx default).name ∧
    play_turn ppDemo .pass (some "") ≠ ppDemo := by
  constructor
  · decide
  · decide

/-- C4 (amended): an action submitted with a *non-empty* identity string that
is not the current player's name returns the state unchanged. -/
theorem play_turn_nonmatching_name_noop (s : PPState) (a : PPAction) (nm : String)
    (hne : nm ≠ "")
    (hmm : (s.players.getD s.current_player_idx default).name ≠ nm) :
    play_turn s a (some nm) = s := by
  have hr : name_check_rejects (s.players.getD s.current_player_idx default).name (some nm)
      = true := by
    simp only [name_check_rejects]
    rw [if_neg hne, if_neg hmm]
  unfold play_turn
  rw [if_pos hr]

/-- C4 witness: the amended no-op applied at a concrete state and name. -/
theorem play_turn_nonmatching_name_noop_witness :
    ("Zed" : String) ≠ "" ∧ play_turn ppDemo .take (some "Zed") = ppDemo :=
  ⟨by decide, play_turn_nonmatching_name_noop ppDemo .take "Zed" (by decide) (by decide)⟩

/-- C6: a `'pass'` by the current player with zero chips is exactly a forced
`'take'`, and no transition ever drives a chip count (or the pot) below
zero. -/
theorem pass_zero_chips_forced_take (s : PPState) :
    (∀ n, (s.players.getD s.current_player_idx default).chips = 0 →
       name_check_rejects (s.players.getD s.current_player_idx default).name n = false →
       play_turn s .pass n = play_turn s .take none) ∧
    ((∀ p ∈ s.players, 0 ≤ p.chips) → 0 ≤ s.pot →
       ∀ (a : PPAction) (n : Option String),
         (∀ p ∈ (play_turn s a n).players, 0 ≤ p.chips) ∧ 0 ≤ (play_turn s a n).pot) := by
  constructor
  · intro n hz hn
    have hn' : ¬ (name_check_rejects
        (s.players.getD s.current_player_idx default).name n = true) := by rw [hn]; simp
    unfold play_turn
    rw [if_neg hn']
    simp only [name_check_rejects, Bool.false_eq_true, if_false]
    rw [hz]
    simp
  · intro hall hpot a n
    have hmem : ∀ p', (∀ q ∈ s.players, 0 ≤ q.chips) → 0 ≤ p'.chips →
        ∀ p ∈ s.players.set s.current_player_idx p', 0 ≤ p.chips := by
      intro p' hq hp' p hp
      rcases List.mem_or_eq_of_mem_set hp with h | h
      · exact hq p h
      · rw [h]; exact hp'
    have htake : (∀ p ∈ (do_take s).players, 0 ≤ p.chips) ∧ 0 ≤ (do_take s).pot := by
      rw [do_take_players, do_take_pot]
      refine ⟨?_, le_refl 0⟩
      unfold take_core
      simp only
      exact hmem _ hall (by
        have hnn := getD_chips_nonneg hall s.current_player_idx
        show 0 ≤ (s.players.getD s.current_player_idx default).chips + s.pot
        omega)
    unfold play_turn
    by_cases hr : name_check_rejects (s.players.getD s.current_player_idx default).name n = true
    · rw [if_pos hr]
      exact ⟨hall, hpot⟩
    · simp only [Bool.not_eq_true] at hr
      simp only [hr, Bool.false_eq_true, if_false]
      cases a with
      | take => exact htake
      | pass =>
        by_cases hc : (s.players.getD s.current_player_idx default).chips > 0
        · simp only [hc, if_true]
          constructor
          · exact hmem _ hall (by
              show 0 ≤ (s.players.getD s.current_player_idx default).chips - 1
              omega)
          · show 0 ≤ s.pot + 1
            omega
        · simp only [hc, if_false]
          exact htake

/-- C6 witness: the forced-take clause applied at a concrete zero-chip
state. -/
theorem pass_zero_chips_forced_take_witness :
    play_turn
      { players := [⟨"A", [], 0, true⟩, ⟨"B", [], 4, false⟩], deck := [9], pot := 2,
        current_card := 7, current_player_idx := 0, game_over := false, leaderboard := [] }
      .pass none
    = play_turn
      { players := [⟨"A", [], 0, true⟩, ⟨"B", [], 4, false⟩], deck := [9], pot := 2,
        current_card := 7, current_player_idx := 0, game_over := false, leaderboard := [] }
      .take none :=
  (pass_zero_chips_forced_take
    { players := [⟨"A", [], 0, true⟩, ⟨"B", [], 4, false⟩], deck := [9], pot := 2,
      current_card := 7, current_player_idx := 0, game_over := false,
      leaderboard := [] }).1 none (by decide) (by decide)

/-! ### Stability of the leaderboard sort -/

lemma filter_orderedInsert_key_eq (a : LBEntry) (v : Int) (ha : a.final_score = v) :
    ∀ l : List LBEntry,
      (l.orderedInsert lbLE a).filter (fun e => e.final_score = v)
        = a :: l.filter (fun e => e.final_score = v) := by
  intro l
  induction l with
  | nil => simp [List.orderedInsert, ha]
  | cons f l ih =>
    rw [List.orderedInsert]
    by_cases hle : lbLE a f
    · rw [if_pos hle]
      simp [List.filter_cons, ha]
    · rw [if_neg hle]
      have hf : ¬ (f.final_score = v) := by
        unfold lbLE at hle
        omega
      simp only [List.filter_cons, decide_eq_true_eq, hf, if_false, ih]

lemma filter_orderedInsert_key_ne (a : LBEntry) (v : Int) (ha : ¬ a.final_score = v) :
    ∀ l : List LBEntry,
      (l.orderedInsert lbLE a).filter (fun e => e.final_score = v)
        = l.filter (fun e => e.final_score = v) := by
  intro l
  induction l with
  | nil => simp [List.orderedInsert, ha]
  | cons f l ih =>
    rw [List.orderedInsert]
    by_cases hle : lbLE a f
    · rw [if_pos hle]
      simp [List.filter_cons, ha]
    · rw [if_neg hle]
      simp only [List.filter_cons, ih]

/-- Stability of the leaderboard sort: entries of any one final score appear
in the same order before and after sorting. -/
lemma filter_insertionSort_key (v : Int) (l : List LBEntry) :
    (l.insertionSort lbLE).filter (fun e => e.final_score = v)
      = l.filter (fun e => e.final_score = v) := by
  induction l with
  | nil => rfl
  | cons a l ih =>
    rw [List.insertionSort]
    by_cases ha : a.final_score = v
    · rw [filter_orderedInsert_key_eq a v ha, ih, List.filter_cons]
      simp [ha]
    · rw [filter_orderedInsert_key_ne a v ha, ih, List.filter_cons]
      simp [ha]

/-- A concrete three-player PickPass state with an empty draw pile (the
face-up card is the last card of the game). -/
def ppDemo2 : PPState :=
  { players := [⟨"Ankit", [10, 11], 2, true⟩, ⟨"Vector", [30], 5, false⟩,
                ⟨"Matrix", [4], 5, false⟩],
    deck := [], pot := 3, current_card := 17, current_player_idx := 1,
    game_over := false, leaderboard := [] }

/-- C9: a `take` with an empty draw pile ends the game: `game_over` becomes
true, the leaderboard has one entry per player with
`final_score = score(cards) - chips`, sorted ascending by final score with
ties in original player order; and no transition with a non-empty draw pile
ever sets `game_over` or touches the leaderboard, so the flag flips exactly
once. -/
theorem take_empty_deck_ends_game (s : PPState) :
    (∀ n, name_check_rejects (s.players.getD s.current_player_idx default).name n = false →
        play_turn s .take n = do_take s) ∧
    (s.deck = [] →
       (do_take s).game_over = true ∧
       (do_take s).leaderboard.length = s.players.length ∧
       (do_take s).leaderboard.Perm ((do_take s).players.map mkEntry) ∧
       (do_take s).leaderboard.Sorted lbLE ∧
       (∀ v : Int, (do_take s).leaderboard.filter (fun e => e.final_score = v)
          = ((do_take s).players.map mkEntry).filter (fun e => e.final_score = v)) ∧
       (∀ e ∈ (do_take s).leaderboard, ∃ p ∈ (do_take s).players,
          e = mkEntry p ∧ e.final_score = calculate_score p.cards - p.chips)) ∧
    (∀ (a : PPAction) (n : Option String), s.deck ≠ [] →
       (play_turn s a n).game_over = s.game_over ∧
       (play_turn s a n).leaderboard = s.leaderboard) := by
  refine ⟨?_, ?_, ?_⟩
  · intro n hn
    have hn' : ¬ (name_check_rejects
        (s.players.getD s.current_player_idx default).name n = true) := by rw [hn]; simp
    unfold play_turn
    rw [if_neg hn']
  · intro hd
    rw [do_take_deck_nil hd]
    have hpl : (end_game (take_core s)).players = (take_core s).players := rfl
    have hlb : (end_game (take_core s)).leaderboard
        = ((take_core s).players.map mkEntry).insertionSort lbLE := rfl
    have hlen : (take_core s).players.length = s.players.length := by
      unfold take_core
      simp
    refine ⟨rfl, ?_, ?_, ?_, ?_, ?_⟩
    · rw [hlb, List.length_insertionSort, List.length_map, hlen]
    · rw [hlb, hpl]
      exact List.perm_insertionSort lbLE _
    · rw [hlb]
      exact List.sorted_insertionSort lbLE _
    · intro v
      rw [hlb, hpl]
      exact filter_insertionSort_key v _
    · intro e he
      rw [hlb] at he
      have he' : e ∈ (take_core s).players.map mkEntry :=
        (List.perm_insertionSort lbLE _).mem_iff.mp he
      rcases List.mem_map.mp he' with ⟨p, hp, hpe⟩
      exact ⟨p, by rw [hpl]; exact hp, hpe.symm, by rw [← hpe]; rfl⟩
  · intro a n hd
    rcases List.exists_cons_of_ne_nil hd with ⟨c, r, hcr⟩
    have hdt := do_take_game_over_of_deck_cons hcr
    unfold play_turn
    by_cases hr : name_check_rejects (s.players.getD s.current_player_idx default).name n = true
    · rw [if_pos hr]
      exact ⟨rfl, rfl⟩
    · simp only [Bool.not_eq_true] at hr
      simp only [hr, Bool.false_eq_true, if_false]
      cases a with
      | take => exact hdt
      | pass =>
        by_cases hc : (s.players.getD s.current_player_idx default).chips > 0
        · rw [if_pos hc]
          exact ⟨rfl, rfl⟩
        · rw [if_neg hc]
          exact hdt

/-- C9 witness: the terminal clause applied at a concrete state whose draw
pile is empty. -/
theorem take_empty_deck_ends_game_witness :
    (ppDemo2.deck = []) ∧ (do_take ppDemo2).game_over = true :=
  ⟨rfl, ((take_empty_deck_ends_game ppDemo2).2.1 rfl).1⟩

/-! ## `logic_bidwiser.py` : utilities and the SmartBot -/

/-- Embedding of `resolve_round_logic(p1_card, p2_card, current_pot)`:
`(p1_points, p2_points, is_tie)`. -/
def resolve_round_logic (p1_card p2_card current_pot : Int) : Int × Int × Bool :=
  if p1_card > p2_card then (current_pot, 0, false)
  else if p2_card > p1_card then (0, current_pot, false)
  else (0, 0, true)

/-- Rationals extended with `-inf` and `+inf`, modelling Python's
`float('inf')` sentinels in the SmartBot search loops. -/
inductive XQ where
  | ninf
  | fin (q : ℚ)
  | pinf
deriving DecidableEq

/-- The strict order on `XQ` (`-inf < finite < +inf`). -/
def XQ.lt : XQ → XQ → Bool
  | .ninf, .fin _ => true
  | .ninf, .pinf => true
  | .fin a, .fin b => a < b
  | .fin _, .pinf => true
  | _, _ => false

/-- One-round outcome estimate of `SmartBot.minimax_move` for the bot playing
`b` against the reply `p`: running score differential, plus the immediate
payoff differential, plus the static remaining-hand-sum estimate of the
future. -/
def minimax_total (bot_hand player_hand : List Int) (current_pot : Int)
    (remaining_prizes : List Int) (bot_score player_score : ℚ) (b p : Int) : ℚ :=
  let r := resolve_round_logic b p current_pot
  let current_diff : Int := r.1 - r.2.1
  let future_diff : Int :=
    if remaining_prizes ≠ [] then
      (bot_hand.filter (fun x => x ≠ b)).sum - (player_hand.filter (fun x => x ≠ p)).sum
    else 0
  let current_diff : Int := if r.2.2 = true ∧ remaining_prizes = [] then 0 else current_diff
  (bot_score - player_score) + (current_diff : ℚ) + (future_diff : ℚ)

/-- The body of the reply loop in `SmartBot.minimax_move`
(`if total_outcome < min_utility: min_utility = total_outcome`). -/
def min_utility_step (f : Int → ℚ) (mu : XQ) (p : Int) : XQ :=
  if (XQ.fin (f p)).lt mu then .fin (f p) else mu

/-- The inner loop of `SmartBot.minimax_move` for one candidate card `b`:
the minimum, over the opponent's cards, of the one-round outcome estimate
(`min_utility` starts at `float('inf')`). -/
def minimax_min_utility (bot_hand player_hand : List Int) (current_pot : Int)
    (remaining_prizes : List Int) (bot_score player_score : ℚ) (b : Int) : XQ :=
  player_hand.foldl
    (min_utility_step (minimax_total bot_hand player_hand current_pot remaining_prizes
      bot_score player_score b)) .pinf

/-- The body of the candidate loop in `SmartBot.minimax_move`: strict
improvement restarts `best_options` at `[b]`, an exact tie appends `b`. -/
def options_step (f : Int → XQ) (st : XQ × List Int) (b : Int) : XQ × List Int :=
  let mu := f b
  if st.1.lt mu then (mu, [b])
  else if mu = st.1 then (st.1, st.2 ++ [b])
  else st

/-- The outer loop of `SmartBot.minimax_move`: walk the candidates (hand
sorted high to low), keeping the list `best_options` of candidates whose
worst-case utility attains the running maximum (`max_min_utility` starts at
`-float('inf')`); the Python function returns `random.choice(best_options)`. -/
def minimax_options (bot_hand player_hand : List Int) (current_pot : Int)
    (remaining_prizes : List Int) (bot_score player_score : ℚ) : List Int :=
  let candidates := (bot_hand.insertionSort (· ≤ ·)).reverse
  (candidates.foldl
    (options_step (minimax_min_utility bot_hand player_hand current_pot remaining_prizes
      bot_score player_score)) (.ninf, [])).2

/-- The per-reply weight of `SmartBot.heuristic_move`'s opponent model
(`weights[c]`, a function of the hand and pot only). -/
def heuristic_weight (player_hand : List Int) (current_pot : Int) (c : Int) : ℚ :=
  if current_pot > 10 then
    (if c ≥ (player_hand.maximum.getD 0) - 1 then (1 : ℚ) + 3 else 1) *
      (if c < 5 then 1/10 else 1)
  else
    if (c - min current_pot 15).natAbs ≤ 1 then 1 + 2 else 1

/-- The per-matchup utility in `SmartBot.heuristic_move`'s EV sum. -/
def heuristic_u (my_card opp_card current_pot : Int) : ℚ :=
  let r := resolve_round_logic my_card opp_card current_pot
  if r.2.2 then -((my_card : ℚ) * (9/10))
  else ((r.1 - r.2.1 : Int) : ℚ) - (my_card : ℚ) * (8/10)

/-- The probability-weighted EV (plus jitter) that `SmartBot.heuristic_move`
assigns to one of the bot's candidate cards. -/
def heuristic_ev (jitter : Int → ℚ) (player_hand : List Int) (current_pot : Int)
    (my_card : Int) : ℚ :=
  let total_w := (player_hand.map (heuristic_weight player_hand current_pot)).sum
  (player_hand.map (fun opp =>
    (heuristic_weight player_hand current_pot opp / total_w) *
      heuristic_u my_card opp current_pot)).sum + jitter my_card

/-- The body of the candidate loop in `SmartBot.heuristic_move`
(`if ev > best_ev: best_ev, best_card = ev, my_card`). -/
def best_ev_step (f : Int → ℚ) (st : XQ × Int) (my_card : Int) : XQ × Int :=
  if st.1.lt (.fin (f my_card)) then (.fin (f my_card), my_card) else st

/-- Embedding of `SmartBot.heuristic_move`; `jitter` stands for the
`random.uniform(-0.1, 0.1)` noise added to each candidate's EV. -/
def heuristic_move (jitter : Int → ℚ) (bot_hand player_hand : List Int)
    (current_pot : Int) : Int :=
  (bot_hand.foldl (best_ev_step (heuristic_ev jitter player_hand current_pot))
    (.ninf, bot_hand.headI)).2

/-- Embedding of `SmartBot.decide_move`; `pick` stands for
`random.choice` over the minimax `best_options`. -/
def decide_move (pick : List Int → Int) (jitter : Int → ℚ)
    (bot_hand player_hand : List Int) (current_pot_value : Int)
    (remaining_prizes : List Int) (bot_score player_score : ℚ) : Int :=
  if bot_hand.length ≤ 6 then
    pick (minimax_options bot_hand player_hand current_pot_value remaining_prizes
      bot_score player_score)
  else heuristic_move jitter bot_hand player_hand current_pot_value

/-! ## `logic_bidwiser.py` : the `BidWiserGame` engine -/

/-- One element of `BidWiserGame.round_history`. -/
structure RoundRec where
  prize : Int
  p1_card : Int
  p2_card : Int
  result : String
deriving DecidableEq

/-- The mutable fields of a `BidWiserGame` instance.  Scores are rationals
because a final split may award half-integral points.  The SmartBot's
`opponent_history` memory is not modelled: it is write-only in the source and
never consumed by any decision. -/
structure BWState where
  prizes : List Int
  p1_name : String
  p1_hand : List Int
  p1_score : ℚ
  p1_move : Option Int
  p2_name : String
  p2_is_bot : Bool
  p2_hand : List Int
  p2_score : ℚ
  p2_move : Option Int
  carry_over_pot : Int
  round_history : List RoundRec
  current_prize : Int
  game_over : Bool
deriving DecidableEq

/-- The winner-determination block of `BidWiserGame.resolve_round`, extracted
over its scalar inputs: new `(p1_score, p2_score, carry_over_pot, result)`
after playing `c1` against `c2` for the pot `prize + carry`. -/
def resolve_outcome (p1_name p2_name : String) (p1s p2s : ℚ) (prize carry : Int)
    (no_prizes : Bool) (c1 c2 : Int) : ℚ × ℚ × Int × String :=
  let pot_val : Int := prize + carry
  let r := resolve_round_logic c1 c2 pot_val
  if r.2.2 = false then
    if r.1 > 0 then (p1s + (r.1 : ℚ), p2s, 0, p1_name ++ " Wins")
    else (p1s, p2s + (r.2.1 : ℚ), 0, p2_name ++ " Wins")
  else
    if no_prizes then (p1s + (pot_val : ℚ) / 2, p2s + (pot_val : ℚ) / 2, 0, "Split")
    else (p1s, p2s, carry + prize, "Tie")

/-- Embedding of `BidWiserGame.resolve_round` (only called with both moves
set; a `None` move would raise in Python, so the embedding reads the moves
with a default that theorems never rely on). -/
def resolve_round (s : BWState) : BWState :=
  let p1_card := s.p1_move.getD 0
  let p2_card := s.p2_move.getD 0
  let res : ℚ × ℚ × Int × String :=
    resolve_outcome s.p1_name s.p2_name s.p1_score s.p2_score s.current_prize
      s.carry_over_pot (decide (s.prizes = [])) p1_card p2_card
  { s with p1_hand := s.p1_hand.erase p1_card,
           p2_hand := s.p2_hand.erase p2_card,
           p1_score := res.1,
           p2_score := res.2.1,
           carry_over_pot := res.2.2.1,
           round_history := s.round_history ++
             [⟨s.current_prize, p1_card, p2_card, res.2.2.2⟩],
           p1_move := none,
           p2_move := none,
           game_over := if s.prizes = [] then true else s.game_over,
           current_prize := if s.prizes = [] then 0 else s.prizes.headI,
           prizes := if s.prizes = [] then s.prizes else s.prizes.tail }

/-! ### Round-resolution case lemmas -/

lemma resolve_outcome_p1_wins (n1 n2 : String) (p1s p2s : ℚ) (prize carry : Int)
    (b : Bool) (c1 c2 : Int) (hgt : c1 > c2) (hpos : 0 ≤ prize + carry) :
    (resolve_outcome n1 n2 p1s p2s prize carry b c1 c2).1
        = p1s + ((prize + carry : Int) : ℚ) ∧
    (resolve_outcome n1 n2 p1s p2s prize carry b c1 c2).2.1 = p2s ∧
    (resolve_outcome n1 n2 p1s p2s prize carry b c1 c2).2.2.1 = 0 := by
  simp only [resolve_outcome, resolve_round_logic]
  rw [if_pos hgt]
  simp only
  by_cases hp : 0 < prize + carry
  · rw [if_pos hp]
    exact ⟨rfl, rfl, rfl⟩
  · rw [if_neg hp]
    have h0 : prize + carry = 0 := by omega
    rw [h0]
    norm_num

lemma resolve_outcome_p2_wins (n1 n2 : String) (p1s p2s : ℚ) (prize carry : Int)
    (b : Bool) (c1 c2 : Int) (hgt : c2 > c1) :
    (resolve_outcome n1 n2 p1s p2s prize carry b c1 c2).1 = p1s ∧
    (resolve_outcome n1 n2 p1s p2s prize carry b c1 c2).2.1
        = p2s + ((prize + carry : Int) : ℚ) ∧
    (resolve_outcome n1 n2 p1s p2s prize carry b c1 c2).2.2.1 = 0 := by
  simp only [resolve_outcome, resolve_round_logic]
  rw [if_neg (show ¬ (c1 > c2) by omega), if_pos hgt]
  norm_num

lemma resolve_outcome_tie (n1 n2 : String) (p1s p2s : ℚ) (prize carry : Int)
    (b : Bool) (c : Int) :
    resolve_outcome n1 n2 p1s p2s prize carry b c c
      = (if b then (p1s + ((prize + carry : Int) : ℚ) / 2,
                    p2s + ((prize + carry : Int) : ℚ) / 2, 0, "Split")
         else (p1s, p2s, carry + prize, "Tie")) := by
  have hcc : ¬ (c > c) := by omega
  simp only [resolve_outcome, resolve_round_logic, if_neg hcc]
  simp

/-- `resolve_round`'s scalar fields are the components of `resolve_outcome`. -/
lemma resolve_round_fields (s : BWState) :
    (resolve_round s).p1_score = (resolve_outcome s.p1_name s.p2_name s.p1_score
      s.p2_score s.current_prize s.carry_over_pot (decide (s.prizes = []))
      (s.p1_move.getD 0) (s.p2_move.getD 0)).1 ∧
    (resolve_round s).p2_score = (resolve_outcome s.p1_name s.p2_name s.p1_score
      s.p2_score s.current_prize s.carry_over_pot (decide (s.prizes = []))
      (s.p1_move.getD 0) (s.p2_move.getD 0)).2.1 ∧
    (resolve_round s).carry_over_pot = (resolve_outcome s.p1_name s.p2_name s.p1_score
      s.p2_score s.current_prize s.carry_over_pot (decide (s.prizes = []))
      (s.p1_move.getD 0) (s.p2_move.getD 0)).2.2.1 :=
  ⟨rfl, rfl, rfl⟩

/-- C7: on a decisive round `carry_over_pot` resets to 0 and only the winner
scores the full pot; on a non-final tie `carry_over_pot` grows by exactly the
current prize and nobody scores; on a final tie each participant scores half
the full pot (their two gains summing to the pot) and `carry_over_pot` resets
to 0. -/
theorem resolve_round_carry_over_spec (s : BWState) (c1 c2 : Int)
    (h1 : s.p1_move = some c1) (h2 : s.p2_move = some c2)
    (hpot : 0 ≤ s.current_prize + s.carry_over_pot) :
    (c1 > c2 →
       (resolve_round s).carry_over_pot = 0 ∧
       (resolve_round s).p1_score
           = s.p1_score + ((s.current_prize + s.carry_over_pot : Int) : ℚ) ∧
       (resolve_round s).p2_score = s.p2_score) ∧
    (c2 > c1 →
       (resolve_round s).carry_over_pot = 0 ∧
       (resolve_round s).p2_score
           = s.p2_score + ((s.current_prize + s.carry_over_pot : Int) : ℚ) ∧
       (resolve_round s).p1_score = s.p1_score) ∧
    (c1 = c2 → s.prizes ≠ [] →
       (resolve_round s).carry_over_pot = s.carry_over_pot + s.current_prize ∧
       (resolve_round s).p1_score = s.p1_score ∧
       (resolve_round s).p2_score = s.p2_score) ∧
    (c1 = c2 → s.prizes = [] →
       (resolve_round s).p1_score
         = s.p1_score + ((s.current_prize + s.carry_over_pot : Int) : ℚ) / 2 ∧
       (resolve_round s).p2_score
         = s.p2_score + ((s.current_prize + s.carry_over_pot : Int) : ℚ) / 2 ∧
       ((resolve_round s).p1_score - s.p1_score) + ((resolve_round s).p2_score - s.p2_score)
         = ((s.current_prize + s.carry_over_pot : Int) : ℚ) ∧
       (resolve_round s).carry_over_pot = 0) := by
  obtain ⟨e1, e2, e3⟩ := resolve_round_fields s
  rw [h1, h2] at e1 e2 e3
  simp only [Option.getD_some] at e1 e2 e3
  refine ⟨?_, ?_, ?_, ?_⟩
  · intro hgt
    obtain ⟨f1, f2, f3⟩ := resolve_outcome_p1_wins s.p1_name s.p2_name s.p1_score
      s.p2_score s.current_prize s.carry_over_pot (decide (s.prizes = [])) c1 c2 hgt hpot
    rw [e1, e2, e3, f1, f2, f3]
    exact ⟨rfl, rfl, rfl⟩
  · intro hgt
    obtain ⟨f1, f2, f3⟩ := resolve_outcome_p2_wins s.p1_name s.p2_name s.p1_score
      s.p2_score s.current_prize s.carry_over_pot (decide (s.prizes = [])) c1 c2 hgt
    rw [e1, e2, e3, f1, f2, f3]
    exact ⟨rfl, rfl, rfl⟩
  · intro heq hne
    subst heq
    have hb : decide (s.prizes = []) = false := decide_eq_false hne
    have ft := resolve_outcome_tie s.p1_name s.p2_name s.p1_score s.p2_score
      s.current_prize s.carry_over_pot false c1
    rw [if_neg (by simp)] at ft
    rw [e1, e2, e3, hb, ft]
    exact ⟨rfl, rfl, rfl⟩
  · intro heq hnil
    subst heq
    have hb : decide (s.prizes = []) = true := decide_eq_true hnil
    have ft := resolve_outcome_tie s.p1_name s.p2_name s.p1_score s.p2_score
      s.current_prize s.carry_over_pot true c1
    rw [if_pos rfl] at ft
    rw [e1, e2, e3, hb, ft]
    refine ⟨rfl, rfl, ?_, rfl⟩
    show s.p1_score + ((s.current_prize + s.carry_over_pot : Int) : ℚ) / 2 - s.p1_score
        + (s.p2_score + ((s.current_prize + s.carry_over_pot : Int) : ℚ) / 2 - s.p2_score)
      = ((s.current_prize + s.carry_over_pot : Int) : ℚ)
    ring

/-! ### The SmartBot always plays a card from its hand -/

lemma min_utility_step_ne_ninf (f : Int → ℚ) (mu : XQ) (p : Int) (h : mu ≠ .ninf) :
    min_utility_step f mu p ≠ .ninf := by
  unfold min_utility_step
  split
  · exact fun hc => XQ.noConfusion hc
  · exact h

lemma foldl_min_utility_ne_ninf (f : Int → ℚ) (l : List Int) :
    ∀ mu : XQ, mu ≠ .ninf → l.foldl (min_utility_step f) mu ≠ .ninf := by
  induction l with
  | nil => exact fun mu h => h
  | cons p l ih =>
    intro mu h
    rw [List.foldl_cons]
    exact ih _ (min_utility_step_ne_ninf f mu p h)

lemma minimax_min_utility_ne_ninf (bh ph : List Int) (pot : Int) (rp : List Int)
    (bs ps : ℚ) (b : Int) :
    minimax_min_utility bh ph pot rp bs ps b ≠ .ninf :=
  foldl_min_utility_ne_ninf _ ph .pinf (fun hc => XQ.noConfusion hc)

lemma options_step_subset (f : Int → XQ) (st : XQ × List Int) (b : Int) (S : List Int)
    (hst : ∀ x ∈ st.2, x ∈ S) (hb : b ∈ S) :
    ∀ x ∈ (options_step f st b).2, x ∈ S := by
  unfold options_step
  intro x hx
  dsimp only at hx
  split at hx
  · rw [List.mem_singleton.mp hx]
    exact hb
  · split at hx
    · rcases List.mem_append.mp hx with h | h
      · exact hst x h
      · rw [List.mem_singleton.mp h]
        exact hb
    · exact hst x hx

lemma foldl_options_subset (f : Int → XQ) (l : List Int) (S : List Int) :
    ∀ st : XQ × List Int, (∀ x ∈ st.2, x ∈ S) → (∀ b ∈ l, b ∈ S) →
      ∀ x ∈ (l.foldl (options_step f) st).2, x ∈ S := by
  induction l with
  | nil => exact fun st hst _ => hst
  | cons b l ih =>
    intro st hst hl
    rw [List.foldl_cons]
    exact ih _ (options_step_subset f st b S hst (hl b (List.mem_cons_self _ _)))
      (fun c hc => hl c (List.mem_cons_of_mem b hc))

lemma options_step_ne_nil_of_ne_nil (f : Int → XQ) (st : XQ × List Int) (b : Int)
    (h : st.2 ≠ []) : (options_step f st b).2 ≠ [] := by
  unfold options_step
  dsimp only
  split
  · exact List.cons_ne_nil _ _
  · split
    · exact List.append_ne_nil_of_right_ne_nil _ (List.cons_ne_nil _ _)
    · exact h

lemma foldl_options_ne_nil (f : Int → XQ) (l : List Int) :
    ∀ st : XQ × List Int, st.2 ≠ [] → (l.foldl (options_step f) st).2 ≠ [] := by
  induction l with
  | nil => exact fun st h => h
  | cons b l ih =>
    intro st h
    rw [List.foldl_cons]
    exact ih _ (options_step_ne_nil_of_ne_nil f st b h)

lemma options_step_ninf_ne_nil (f : Int → XQ) (opts : List Int) (b : Int)
    (hf : f b ≠ .ninf) : (options_step f (.ninf, opts) b).2 ≠ [] := by
  unfold options_step
  dsimp only
  rcases hb : f b with _ | q | _
  · exact absurd hb hf
  · simp [XQ.lt]
  · simp [XQ.lt]

lemma minimax_options_subset (bh ph : List Int) (pot : Int) (rp : List Int) (bs ps : ℚ) :
    ∀ x ∈ minimax_options bh ph pot rp bs ps, x ∈ bh := by
  unfold minimax_options
  refine foldl_options_subset _ _ bh (.ninf, []) (by simp) ?_
  intro b hb
  rw [List.mem_reverse, List.mem_insertionSort] at hb
  exact hb

lemma minimax_options_ne_nil (bh ph : List Int) (pot : Int) (rp : List Int) (bs ps : ℚ)
    (hbh : bh ≠ []) : minimax_options bh ph pot rp bs ps ≠ [] := by
  unfold minimax_options
  have hc : (bh.insertionSort (· ≤ ·)).reverse ≠ [] := by
    intro hcon
    apply hbh
    have := congrArg List.length hcon
    simp only [List.length_reverse, List.length_insertionSort, List.length_nil] at this
    exact List.eq_nil_of_length_eq_zero this
  rcases hl : (bh.insertionSort (· ≤ ·)).reverse with _ | ⟨c, cs⟩
  · exact absurd hl hc
  · show ((c :: cs).foldl (options_step (minimax_min_utility bh ph pot rp bs ps))
      (.ninf, [])).2 ≠ []
    rw [List.foldl_cons]
    exact foldl_options_ne_nil _ cs _
      (options_step_ninf_ne_nil _ [] c (minimax_min_utility_ne_ninf bh ph pot rp bs ps c))

lemma best_ev_step_mem (f : Int → ℚ) (st : XQ × Int) (c : Int) (S : List Int)
    (hst : st.2 ∈ S) (hc : c ∈ S) : (best_ev_step f st c).2 ∈ S := by
  unfold best_ev_step
  split
  · exact hc
  · exact hst

lemma foldl_best_ev_mem (f : Int → ℚ) (l : List Int) (S : List Int) :
    ∀ st : XQ × Int, st.2 ∈ S → (∀ x ∈ l, x ∈ S) → (l.foldl (best_ev_step f) st).2 ∈ S := by
  induction l with
  | nil => exact fun st hst _ => hst
  | cons c l ih =>
    intro st hst hl
    rw [List.foldl_cons]
    exact ih _ (best_ev_step_mem f st c S hst (hl c (List.mem_cons_self _ _)))
      (fun x hx => hl x (List.mem_cons_of_mem c hx))

lemma headI_mem_self {l : List Int} (h : l ≠ []) : l.headI ∈ l := by
  cases l with
  | nil => exact absurd rfl h
  | cons a l => exact List.mem_cons_self a l

lemma heuristic_move_mem (jitter : Int → ℚ) (bh ph : List Int) (pot : Int)
    (hbh : bh ≠ []) : heuristic_move jitter bh ph pot ∈ bh := by
  unfold heuristic_move
  exact foldl_best_ev_mem _ bh bh (.ninf, bh.headI) (headI_mem_self hbh) (fun x hx => hx)

/-- The SmartBot's chosen card is always a member of its own hand, for any
resolution of the randomness. -/
lemma decide_move_mem (pick : List Int → Int) (jitter : Int → ℚ)
    (hpick : ∀ l : List Int, l ≠ [] → pick l ∈ l)
    (bh ph : List Int) (pot : Int) (rp : List Int) (bs ps : ℚ) (hbh : bh ≠ []) :
    decide_move pick jitter bh ph pot rp bs ps ∈ bh := by
  unfold decide_move
  split
  · exact minimax_options_subset bh ph pot rp bs ps _
      (hpick _ (minimax_options_ne_nil bh ph pot rp bs ps hbh))
  · exact heuristic_move_mem jitter bh ph pot hbh

/-- A concrete BidWiser state at the last round, both players having pledged
the same card (a final tie about to be split). -/
def bwDemoTie : BWState :=
  { prizes := [], p1_name := "Ankit", p1_hand := [7], p1_score := 40,
    p1_move := some 7, p2_name := "DeepGoof (Bot)", p2_is_bot := true,
    p2_hand := [7], p2_score := 38, p2_move := some 7, carry_over_pot := 2,
    round_history := [], current_prize := 11, game_over := false }

/-- C7 witness: the final-tie clause applied at a concrete state. -/
theorem resolve_round_carry_over_spec_witness :
    (resolve_round bwDemoTie).p1_score = bwDemoTie.p1_score
        + ((bwDemoTie.current_prize + bwDemoTie.carry_over_pot : Int) : ℚ) / 2 :=
  ((resolve_round_carry_over_spec bwDemoTie 7 7 rfl rfl (by decide)).2.2.2 rfl rfl).1

/-- The move-recording stage of `register_move`: store the card if the caller
is a participant (a human one, for player 2) and the card is in their hand. -/
def register_record (s : BWState) (player_name : String) (card : Int) : BWState :=
  if player_name = s.p1_name then
    (if card ∈ s.p1_hand then { s with p1_move := some card } else s)
  else if player_name = s.p2_name ∧ s.p2_is_bot = false then
    (if card ∈ s.p2_hand then { s with p2_move := some card } else s)
  else s

/-- The bot stage of `register_move`: if player 2 is the bot and player 1 has
moved, the bot's move is computed immediately. -/
def register_bot (pick : List Int → Int) (jitter : Int → ℚ) (s : BWState) : BWState :=
  if s.p2_is_bot = true ∧ s.p1_move ≠ none then
    { s with p2_move := some (decide_move pick jitter s.p2_hand s.p1_hand
        (s.current_prize + s.carry_over_pot) s.prizes s.p2_score s.p1_score) }
  else s

/-- Embedding of `BidWiserGame.register_move(player_name, card)`: the Bool is
the Python return value, the state is the engine after the call. -/
def register_move (pick : List Int → Int) (jitter : Int → ℚ) (s : BWState)
    (player_name : String) (card : Int) : Bool × BWState :=
  if s.game_over then (false, s)
  else
    let s2 := register_bot pick jitter (register_record s player_name card)
    if s2.p1_move ≠ none ∧ s2.p2_move ≠ none then (true, resolve_round s2)
    else (true, s2)

/-- C8: round resolution removes exactly the one played card from each hand
(never to return: it is no longer a member afterwards, and hands stay
duplicate-free), and a move can only ever be recorded — by a human through
`register_record` or by the bot through `register_bot` — if it is a card
currently in that participant's hand. -/
theorem hands_lose_played_cards (pick : List Int → Int) (jitter : Int → ℚ)
    (hpick : ∀ l : List Int, l ≠ [] → pick l ∈ l) (s : BWState) (c1 c2 : Int) :
    (s.p1_move = some c1 → c1 ∈ s.p1_hand → s.p1_hand.Nodup →
       (resolve_round s).p1_hand = s.p1_hand.erase c1 ∧
       (resolve_round s).p1_hand.length + 1 = s.p1_hand.length ∧
       c1 ∉ (resolve_round s).p1_hand ∧ (resolve_round s).p1_hand.Nodup) ∧
    (s.p2_move = some c2 → c2 ∈ s.p2_hand → s.p2_hand.Nodup →
       (resolve_round s).p2_hand = s.p2_hand.erase c2 ∧
       (resolve_round s).p2_hand.length + 1 = s.p2_hand.length ∧
       c2 ∉ (resolve_round s).p2_hand ∧ (resolve_round s).p2_hand.Nodup) ∧
    (∀ (name : String) (card c : Int),
       (register_record s name card).p1_move = some c →
       s.p1_move = some c ∨ (c = card ∧ c ∈ s.p1_hand)) ∧
    (∀ (name : String) (card c : Int),
       (register_record s name card).p2_move = some c →
       s.p2_move = some c ∨ (c = card ∧ c ∈ s.p2_hand)) ∧
    (∀ t : BWState, t.p2_hand ≠ [] → ∀ c : Int,
       (register_bot pick jitter t).p2_move = some c →
       t.p2_move = some c ∨ c ∈ t.p2_hand) := by
  refine ⟨?_, ?_, ?_, ?_, ?_⟩
  · intro h1 hmem hnd
    have he : (resolve_round s).p1_hand = s.p1_hand.erase c1 := by
      show s.p1_hand.erase (s.p1_move.getD 0) = s.p1_hand.erase c1
      rw [h1]
      rfl
    refine ⟨he, ?_, ?_, ?_⟩
    · have hlp : 0 < s.p1_hand.length := List.length_pos_of_mem hmem
      rw [he, List.length_erase_of_mem hmem]
      omega
    · rw [he]
      exact hnd.not_mem_erase
    · rw [he]
      exact hnd.erase c1
  · intro h2 hmem hnd
    have he : (resolve_round s).p2_hand = s.p2_hand.erase c2 := by
      show s.p2_hand.erase (s.p2_move.getD 0) = s.p2_hand.erase c2
      rw [h2]
      rfl
    refine ⟨he, ?_, ?_, ?_⟩
    · have hlp : 0 < s.p2_hand.length := List.length_pos_of_mem hmem
      rw [he, List.length_erase_of_mem hmem]
      omega
    · rw [he]
      exact hnd.not_mem_erase
    · rw [he]
      exact hnd.erase c2
  · intro name card c hrec
    unfold register_record at hrec
    split at hrec
    · split at hrec
      · rename_i hin
        have hsc : some card = some c := hrec
        have heq : card = c := Option.some_injective _ hsc
        subst heq
        exact Or.inr ⟨rfl, hin⟩
      · exact Or.inl hrec
    · split at hrec
      · split at hrec
        · exact Or.inl hrec
        · exact Or.inl hrec
      · exact Or.inl hrec
  · intro name card c hrec
    unfold register_record at hrec
    split at hrec
    · split at hrec
      · exact Or.inl hrec
      · exact Or.inl hrec
    · split at hrec
      · split at hrec
        · rename_i hin
          have hsc : some card = some c := hrec
          have heq : card = c := Option.some_injective _ hsc
          subst heq
          exact Or.inr ⟨rfl, hin⟩
        · exact Or.inl hrec
      · exact Or.inl hrec
  · intro t ht c hbot
    unfold register_bot at hbot
    split at hbot
    · refine Or.inr ?_
      have : some (decide_move pick jitter t.p2_hand t.p1_hand
          (t.current_prize + t.carry_over_pot) t.prizes t.p2_score t.p1_score) = some c :=
        hbot
      rw [← Option.some_injective _ this]
      exact decide_move_mem pick jitter hpick t.p2_hand t.p1_hand _ t.prizes
        t.p2_score t.p1_score ht
    · exact Or.inl hbot

/-- C8 witness: the p1-hand clause applied at the concrete final-tie state. -/
theorem hands_lose_played_cards_witness :
    (resolve_round bwDemoTie).p1_hand = bwDemoTie.p1_hand.erase 7 ∧
    (7 : Int) ∉ (resolve_round bwDemoTie).p1_hand :=
  ⟨((hands_lose_played_cards (fun l => l.headI) (fun _ => 0)
      (fun l h => headI_mem_self h) bwDemoTie 7 7).1 rfl (by decide) (by decide)).1,
   ((hands_lose_played_cards (fun l => l.headI) (fun _ => 0)
      (fun l h => headI_mem_self h) bwDemoTie 7 7).1 rfl (by decide) (by decide)).2.2.1⟩

/-- C10: once `game_over` is true every `register_move` call returns `False`
and leaves the state untouched; while the game is running every call returns
`True`, and a call that matches no participant, or names a card not in the
caller's hand, records nothing and changes no state (given the engine's
between-call invariants: with a bot opponent `p1_move` is never left pending,
and never are both moves left pending). -/
theorem register_move_error_handling (pick : List Int → Int) (jitter : Int → ℚ)
    (s : BWState) (name : String) (card : Int) :
    (s.game_over = true → register_move pick jitter s name card = (false, s)) ∧
    (s.game_over = false → (register_move pick jitter s name card).1 = true) ∧
    (s.game_over = false → (s.p2_is_bot = true → s.p1_move = none) →
       ¬(s.p1_move ≠ none ∧ s.p2_move ≠ none) →
       ((name ≠ s.p1_name ∧ name ≠ s.p2_name) ∨
        (name = s.p1_name ∧ card ∉ s.p1_hand) ∨
        (name ≠ s.p1_name ∧ name = s.p2_name ∧ s.p2_is_bot = false ∧ card ∉ s.p2_hand)) →
       register_move pick jitter s name card = (true, s)) := by
  refine ⟨?_, ?_, ?_⟩
  · intro hg
    unfold register_move
    rw [if_pos hg]
  · intro hg
    unfold register_move
    rw [if_neg (by rw [hg]; exact Bool.false_ne_true)]
    dsimp only
    split
    · rfl
    · rfl
  · intro hg hbot hpend hcases
    have hrec : register_record s name card = s := by
      unfold register_record
      rcases hcases with ⟨hn1, hn2⟩ | ⟨hn1, hc⟩ | ⟨hn1, hn2, hb, hc⟩
      · rw [if_neg hn1, if_neg (fun hand => hn2 hand.1)]
      · rw [if_pos hn1, if_neg hc]
      · rw [if_neg hn1, if_pos ⟨hn2, hb⟩, if_neg hc]
    have hbotstage : register_bot pick jitter (register_record s name card)
        = register_record s name card := by
      rw [hrec]
      unfold register_bot
      rw [if_neg ?hneg]
      case hneg =>
        rintro ⟨hb2, hm⟩
        exact hm (hbot hb2)
    unfold register_move
    rw [if_neg (by rw [hg]; exact Bool.false_ne_true)]
    dsimp only
    rw [hbotstage, hrec]
    rw [if_neg hpend]

/-! ### The claim's full-depth endgame minimax (spec side of C3)

`SmartBot.minimax_move` computes `depth_limit = 99 if len(bot_hand) <= 4 else 1`
but never uses it: the search is always a single ply with a static
hand-sum estimate of the future.  The definitions below follow the claim's
words instead — a minimax that recurses to the end of the game — so the two
can be compared at a concrete endgame position. -/

/-- Minimum of a list of rationals with a default for the empty list. -/
def listMinD : List ℚ → ℚ → ℚ
  | [], d => d
  | x :: xs, _ => xs.foldl min x

/-- Maximum of a list of rationals with a default for the empty list. -/
def listMaxD : List ℚ → ℚ → ℚ
  | [], d => d
  | x :: xs, _ => xs.foldl max x

/-- The claim's full-depth game value ("recursively to the end of the game"):
both sides play one card per round for the pot `prize + carry` under the
game's own resolution rules (winner scores the pot, ties carry it over, a
final tie splits it), the bot maximising and the opponent minimising the
final score differential.  `fuel` bounds the recursion depth; a fuel of the
bot's hand size is enough to reach the end of the game. -/
def spec_game_value : Nat → List Int → List Int → Int → Int → List Int → ℚ → ℚ → ℚ
  | 0, _, _, _, _, _, bs, ps => bs - ps
  | fuel + 1, bh, ph, prize, carry, prizes, bs, ps =>
    if bh = [] ∨ ph = [] then bs - ps
    else
      listMaxD (bh.map (fun b =>
        listMinD (ph.map (fun p =>
          let pot : ℚ := ((prize : ℚ) + (carry : ℚ))
          let bs' : ℚ := if b > p then bs + pot
            else if p > b then bs
            else if prizes = [] then bs + pot / 2 else bs
          let ps' : ℚ := if p > b then ps + pot
            else if b > p then ps
            else if prizes = [] then ps + pot / 2 else ps
          let carry' : Int := if b = p then carry + prize else 0
          match prizes with
          | [] => bs' - ps'
          | q :: rest =>
            spec_game_value fuel (bh.erase b) (ph.erase p) q carry' rest bs' ps'))
          (bs - ps))) (bs - ps)

/-- The claim's worst-case full-depth outcome of the bot opening with `b`:
the opponent replies so as to minimise the bot's final differential, and the
rest of the game is played out by `spec_game_value`. -/
def spec_move_value (bh ph : List Int) (prize carry : Int) (prizes : List Int)
    (bs ps : ℚ) (b : Int) : ℚ :=
  listMinD (ph.map (fun p =>
    let pot : ℚ := ((prize : ℚ) + (carry : ℚ))
    let bs' : ℚ := if b > p then bs + pot
      else if p > b then bs
      else if prizes = [] then bs + pot / 2 else bs
    let ps' : ℚ := if p > b then ps + pot
      else if b > p then ps
      else if prizes = [] then ps + pot / 2 else ps
    let carry' : Int := if b = p then carry + prize else 0
    match prizes with
    | [] => bs' - ps'
    | q :: rest =>
      spec_game_value (bh.erase b).length (bh.erase b) (ph.erase p) q carry' rest bs' ps'))
    (bs - ps)

/-- The claim's best full-depth moves: candidates (hand ordered high-to-low,
as in the source) whose worst-case outcome attains the maximum. -/
def spec_minimax_options (bh ph : List Int) (prize carry : Int) (prizes : List Int)
    (bs ps : ℚ) : List Int :=
  let candidates := (bh.insertionSort (· ≤ ·)).reverse
  candidates.filter (fun b =>
    spec_move_value bh ph prize carry prizes bs ps b
      = listMaxD (candidates.map (spec_move_value bh ph prize carry prizes bs ps)) (bs - ps))

/-- C3: at the reachable endgame position bot hand `[2, 13]`, opponent hand
`[1, 12]`, pot 10 (prize 10, no carry), one prize (worth 1) left and level
scores, the hand size is ≤ 4, so the claim promises a full-depth search; the
code's `minimax_move` (whose `depth_limit` is never used — it always searches
one ply with a static hand-sum future estimate) uniquely chooses card 2,
which guarantees a final differential of −9, while the claimed full-depth
minimax uniquely chooses 13, guaranteeing +9. -/
theorem minimax_depth_limit_divergence :
    ([2, 13] : List Int).length ≤ 6 ∧ ([2, 13] : List Int).length ≤ 4 ∧
    decide_move (fun l => l.headI) (fun _ => 0) [2, 13] [1, 12] 10 [1] 0 0 = 2 ∧
    minimax_options [2, 13] [1, 12] 10 [1] 0 0 = [2] ∧
    spec_minimax_options [2, 13] [1, 12] 10 0 [1] 0 0 = [13] ∧
    spec_move_value [2, 13] [1, 12] 10 0 [1] 0 0 13 = 9 ∧
    spec_move_value [2, 13] [1, 12] 10 0 [1] 0 0 2 = -9 := by
  have hopt : minimax_options [2, 13] [1, 12] 10 [1] 0 0 = [2] := by
    norm_num [minimax_options, options_step, minimax_min_utility, min_utility_step,
      minimax_total, resolve_round_logic, XQ.lt, List.insertionSort, List.orderedInsert]
  refine ⟨by decide, by decide, ?_, hopt, ?_, ?_, ?_⟩
  · simp [decide_move, hopt]
  · norm_num +decide [spec_minimax_options, spec_move_value, spec_game_value,
      listMinD, listMaxD, List.insertionSort, List.orderedInsert, min_def, max_def]
  · norm_num +decide [spec_move_value, spec_game_value, listMinD, listMaxD,
      min_def, max_def]
  · norm_num +decide [spec_move_value, spec_game_value, listMinD, listMaxD,
      min_def, max_def]

/-- A concrete mid-game BidWiser state between rounds (two humans, no moves
pending). -/
def bwDemoRun : BWState :=
  { prizes := [3, 9], p1_name := "Ankit", p1_hand := [1, 2], p1_score := 10,
    p1_move := none, p2_name := "Bob", p2_is_bot := false, p2_hand := [4, 5],
    p2_score := 20, p2_move := none, carry_over_pot := 0, round_history := [],
    current_prize := 6, game_over := false }

/-- C10 witness: a running-game call by an unknown name at a concrete state
returns `True` and changes nothing. -/
theorem register_move_error_handling_witness :
    register_move (fun l => l.headI) (fun _ => 0) bwDemoRun "Mallory" 5
      = (true, bwDemoRun) :=
  (register_move_error_handling (fun l => l.headI) (fun _ => 0) bwDemoRun "Mallory" 5).2.2
    rfl (by decide) (by decide) (Or.inl ⟨by decide, by decide⟩)

end CardGame
